import Mathlib

/-!
# go-spell: the checker, the aggregator and the two reporting modes

A shallow embedding of `main.go`.  Go strings are byte sequences, Go `int` is the
64-bit two's-complement integer (as on 64-bit targets), a Go map is an association
list with unique keys whose `range` order is an arbitrary permutation supplied by
the caller, and `sort.Slice` is an insertion sort driven by the same `less`
closure as in the source.  The fuzzy model, `strings.ToLower`, the file system and
`filepath.Glob` are external collaborators and enter as function arguments.
-/

namespace GoSpell

/-! ## Go values -/

/-- Reduction of an integer into the range of a 64-bit Go `int` (two's complement). -/
def wrapInt (x : Int) : Int :=
  (x + 9223372036854775808) % 18446744073709551616 - 9223372036854775808

/-- A Go `int`: an integer of the signed 64-bit range. -/
structure GoInt where
  val : Int
  inRange : -9223372036854775808 ≤ val ∧ val < 9223372036854775808
deriving DecidableEq

/-- The Go `int` an integer wraps to. -/
def GoInt.wrap (x : Int) : GoInt := ⟨wrapInt x, by unfold wrapInt; omega⟩

/-- Go integer addition wraps around on overflow. -/
instance : Add GoInt := ⟨fun a b => GoInt.wrap (a.val + b.val)⟩

instance : Zero GoInt := ⟨GoInt.wrap 0⟩

instance (n : Nat) : OfNat GoInt n := ⟨GoInt.wrap n⟩

/-- A Go `string`: a sequence of bytes. -/
abbrev GoString := List UInt8

/-- A Go `error` value, identified by its message. -/
structure GoError where
  msg : GoString
deriving DecidableEq

/-- The bytes of an ASCII literal. -/
def ascii (s : String) : GoString := s.toList.map (fun c => UInt8.ofNat c.toNat)

/-- The byte of the newline character. -/
def newline : UInt8 := 10

/-- The byte of the space character. -/
def space : UInt8 := 32

/-! ## Data model of `main.go` -/

/-- Typo represents a typo in a text and its spellcheck. -/
structure Typo where
  Wrong : GoString
  Correct : GoString
deriving DecidableEq

/-- ErrorCounts represents Typos and their number of occurrences. -/
structure ErrorCounts extends Typo where
  Count : GoInt
deriving DecidableEq

/-- The type `errorMap` is `map[Typo]int`: an association list with unique keys. -/
abbrev errorMap := List (Typo × GoInt)

/-- Map read `m[t]` in its comma-ok form. -/
def mapLookup : errorMap → Typo → Option GoInt
  | [], _ => none
  | (k, v) :: rest, t => if k = t then some v else mapLookup rest t

/-- Map write `m[t] = v`. -/
def mapStore : errorMap → Typo → GoInt → errorMap
  | [], t, v => [(t, v)]
  | (k, w) :: rest, t, v => if k = t then (k, v) :: rest else (k, w) :: mapStore rest t v

/-- The order in which one `range` loop visits the entries of a map: Go leaves it
unspecified, so it is any permutation of the entries. -/
structure MapRange where
  order : errorMap → errorMap
  isPerm : ∀ m, (order m).Perm m

/-- The `range` order that visits the entries as they were inserted. -/
def MapRange.inOrder : MapRange := ⟨fun m => m, fun m => List.Perm.refl m⟩

/-- The `range` order that visits the entries in reverse. -/
def MapRange.reversed : MapRange := ⟨fun m => m.reverse, fun m => List.reverse_perm m⟩

/-! ## Library functions -/

/-- One step of `sort.Slice`: `x` goes in front of the first element that is not less than it. -/
def insertSorted {α : Type} (less : α → α → Bool) (x : α) : List α → List α
  | [] => [x]
  | y :: ys => if less y x then y :: insertSorted less x ys else x :: y :: ys

/-- The library's `sort.Slice(xs, less)`: the elements of `xs` reordered so that no
element is `less` than one in front of it. -/
def sortSlice {α : Type} (less : α → α → Bool) : List α → List α
  | [] => []
  | x :: xs => insertSorted less x (sortSlice less xs)

/-- The call `strings.Replace(s, old, new, -1)` for one-byte `old` and `new`. -/
def strings.Replace (s : GoString) (old new : UInt8) : GoString :=
  s.map (fun c => if c = old then new else c)

/-- The call `strings.Split(s, sep)` for a one-byte `sep`: the pieces between
consecutive separators, one more piece than there are separators. -/
def strings.Split : GoString → UInt8 → List GoString
  | [], _ => [[]]
  | c :: cs, sep =>
    if c = sep then [] :: strings.Split cs sep
    else
      match strings.Split cs sep with
      | [] => [[c]]
      | w :: ws => (c :: w) :: ws

/-- Lower-casing of the ASCII letters, which is what `strings.ToLower` does on ASCII text. -/
def asciiToLower (s : GoString) : GoString :=
  s.map (fun c => if 65 ≤ c.toNat ∧ c.toNat ≤ 90 then UInt8.ofNat (c.toNat + 32) else c)

/-! ## Functions of `main.go` -/

/-- addError adds a single error to an errorMap object taking into account
the number of times it occurred. -/
def addError (typo : Typo) (errors : errorMap) : errorMap :=
  match mapLookup errors typo with
  | none => mapStore errors typo 1
  | some c => mapStore errors typo (c + 1)

/-- The slice expression `checked[:len(checked)-1]` guarded by `len(checked) > 2`. -/
def dropTrailingByte (checked : GoString) : GoString :=
  if checked.length > 2 then checked.take (checked.length - 1) else checked

/-- Body of the token loop of `spellcheckFile` (lines 148-158). -/
def checkWord (ToLower : GoString → GoString) (model : GoString → GoString)
    (errors : errorMap) (word : GoString) : errorMap :=
  let checked := model word
  if checked.length = 0 then errors
  else
    let checked := dropTrailingByte checked
    if ToLower word ≠ ToLower checked then addError ⟨word, checked⟩ errors else errors

/-- The checker: `spellcheckFile` from the point where the file has been read
(lines 144-166). -/
def checkText (ρ : MapRange) (ToLower : GoString → GoString) (model : GoString → GoString)
    (fileContents : GoString) : List ErrorCounts :=
  let sentences := strings.Replace fileContents newline space
  let errors := (strings.Split sentences space).foldl (checkWord ToLower model) []
  let errorList := (ρ.order errors).map (fun kv => ErrorCounts.mk kv.1 kv.2)
  sortSlice (fun a b => decide (a.Count.val > b.Count.val)) errorList

/-- The file name that `spellcheckFile` passes to `ioutil.ReadFile`. -/
def testPath : GoString := ascii "test"

/-- spellcheckFile runs spellcheck on a single file.  The file system is the
function `fs` from a path to the contents or the read error. -/
def spellcheckFile (ρ : MapRange) (fs : GoString → Except GoError GoString)
    (ToLower : GoString → GoString) (model : GoString → GoString)
    (_file : GoString) (_batch : Bool) : List ErrorCounts × Option GoError :=
  match fs testPath with
  | Except.error err => ([], some err)
  | Except.ok fileContents => (checkText ρ ToLower model fileContents, none)

/-- The file loop of `spellcheckDir` (lines 118-128); the file at position `i` of the
glob result ranges over its error map in the order `ρ i`. -/
def spellcheckDirLoop (ρ : Nat → MapRange) (fs : GoString → Except GoError GoString)
    (ToLower : GoString → GoString) (model : GoString → GoString) :
    Nat → List GoString → List ErrorCounts × List GoError → List ErrorCounts × List GoError
  | _, [], acc => acc
  | i, file :: rest, (globalErrors, errs) =>
    match spellcheckFile (ρ i) fs ToLower model file true with
    | (_, some err) => spellcheckDirLoop ρ fs ToLower model (i + 1) rest (globalErrors, errs ++ [err])
    | (errors, none) =>
      spellcheckDirLoop ρ fs ToLower model (i + 1) rest (globalErrors ++ errors, errs)

/-- spellcheckDir runs spellchecking on all files that match the glob pattern.
A failing `filepath.Glob` ends the process (`failOnError`), which is the
`Except.error` result. -/
def spellcheckDir (ρ : Nat → MapRange) (fs : GoString → Except GoError GoString)
    (glob : GoString → Except GoError (List GoString))
    (ToLower : GoString → GoString) (model : GoString → GoString)
    (directory : GoString) : Except GoError (List ErrorCounts × List GoError) :=
  match glob directory with
  | Except.error err => Except.error err
  | Except.ok files => Except.ok (spellcheckDirLoop ρ fs ToLower model 0 files ([], []))

/-- Body of the first loop of `updateCounts` (lines 196-201). -/
def updateStep (errM : errorMap) (item : ErrorCounts) : errorMap :=
  let typo : Typo := ⟨item.Wrong, item.Correct⟩
  match mapLookup errM typo with
  | none => mapStore errM typo item.Count
  | some c => mapStore errM typo (c + item.Count)

/-- updateCounts updates the occurrence of errors across spellcheck results
for multiple files. -/
def updateCounts (ρ : MapRange) (errors : List ErrorCounts) : List ErrorCounts :=
  let errM := errors.foldl updateStep []
  let updated := (ρ.order errM).map (fun kv => ErrorCounts.mk kv.1 kv.2)
  sortSlice (fun a b => decide (a.Count.val > b.Count.val)) updated

/-- The message with which `main` stops when `checkFile` rejects its argument. -/
def pathDoesNotExist : GoError := ⟨ascii "path does not exist"⟩

/-- checkFile checks whether a file exists or a glob pattern returns a non-empty list of
files.  A failing `filepath.Glob` gives `false` at once; `notExist file` is
`os.IsNotExist` of the error of `os.Stat(file)`. -/
def checkFile (glob : GoString → Except GoError (List GoString)) (notExist : GoString → Bool)
    (file : GoString) : Bool :=
  match glob file with
  | Except.error _ => false
  | Except.ok found => if notExist file && decide (found.length = 0) then false else true

/-- The records that batch mode hands to `saveResults` (`main`, lines 62-75), for the model
that `loadModel` returned; `Except.error` is the message the process stops with. -/
def batchReport (ρ : Nat → MapRange) (ρm : MapRange) (fs : GoString → Except GoError GoString)
    (glob : GoString → Except GoError (List GoString)) (notExist : GoString → Bool)
    (ToLower : GoString → GoString) (model : GoString → GoString)
    (directory : GoString) : Except GoError (List ErrorCounts) :=
  if !checkFile glob notExist directory then Except.error pathDoesNotExist
  else
    match spellcheckDir ρ fs glob ToLower model directory with
    | Except.error err => Except.error err
    | Except.ok (errors, _) => Except.ok (updateCounts ρm errors)

/-- The records that single-file mode hands to `saveResults` (`main`, lines 80-88), for the
model that `loadModel` returned; `Except.error` is the message the process stops with, from
`checkFile` or from the read error (`failOnError`). -/
def fileReport (ρ : MapRange) (fs : GoString → Except GoError GoString)
    (glob : GoString → Except GoError (List GoString)) (notExist : GoString → Bool)
    (ToLower : GoString → GoString) (model : GoString → GoString)
    (file : GoString) : Except GoError (List ErrorCounts) :=
  if !checkFile glob notExist file then Except.error pathDoesNotExist
  else
    match spellcheckFile ρ fs ToLower model file false with
    | (_, some err) => Except.error err
    | (errors, none) => Except.ok errors

/-! ## Vocabulary of the specification -/

/-- The count that a list of records gives a Typo: that of its first record for it. -/
def countOf : List ErrorCounts → Typo → Option GoInt
  | [], _ => none
  | r :: rest, t => if r.toTypo = t then some r.Count else countOf rest t

/-- The counts of the records of a list that carry the Typo `t`. -/
def countsFor (t : Typo) (xs : List ErrorCounts) : List GoInt :=
  (xs.filter (fun r => decide (r.toTypo = t))).map (fun r => r.Count)

/-- Sum of a list of Go integers in Go arithmetic. -/
def goSum : List GoInt → GoInt
  | [] => 0
  | c :: cs => c + goSum cs

/-- Sum of a list of Go integers as mathematical integers. -/
def intSum (cs : List GoInt) : Int := (cs.map (fun c => c.val)).sum

/-- The keys of a map. -/
def mapKeys (m : errorMap) : List Typo := m.map Prod.fst

/-- Counting `c` more occurrences of `t`: the map update shared by `addError`
(with `c = 1`) and by the first loop of `updateCounts`. -/
def bump (m : errorMap) (t : Typo) (c : GoInt) : errorMap :=
  match mapLookup m t with
  | none => mapStore m t c
  | some v => mapStore m t (v + c)

/-- Counting a sequence of occurrences into a map, one `bump` each. -/
def tally (m : errorMap) (ps : List (Typo × GoInt)) : errorMap :=
  ps.foldl (fun m p => bump m p.1 p.2) m

/-- The counts that a sequence of occurrences holds for the Typo `t`. -/
def entriesFor (t : Typo) (ps : List (Typo × GoInt)) : List GoInt :=
  (ps.filter (fun p => decide (p.1 = t))).map Prod.snd

/-- The records of the entries of a map. -/
def toRecords (m : errorMap) : List ErrorCounts := m.map (fun kv => ErrorCounts.mk kv.1 kv.2)

/-- The entries of a list of records. -/
def fromRecords (l : List ErrorCounts) : errorMap := l.map (fun r => (r.toTypo, r.Count))

/-- The comparison that both `sort.Slice` calls of `main.go` pass. -/
def byCount (a b : ErrorCounts) : Bool := decide (a.Count.val > b.Count.val)

/-- What a report built from a map `m` looks like: the map that both `checkText` and
`updateCounts` turn into records, range over in the order `ρ` and sort. -/
def report (ρ : MapRange) (m : errorMap) : List ErrorCounts :=
  sortSlice byCount (toRecords (ρ.order m))

/-- The count that a list of counts adds up to, when there is one. -/
def total (cs : List GoInt) : Option GoInt := if cs = [] then none else some (goSum cs)

/-- The Typo and correction used in the worked examples. -/
def tehThe : Typo := ⟨ascii "Teh", ascii "The"⟩

/-- The largest Go `int`. -/
def maxInt : GoInt := 9223372036854775807

/-- The integers that a Go `int` can hold. -/
def inIntRange (x : Int) : Prop := -9223372036854775808 ≤ x ∧ x < 9223372036854775808

instance (x : Int) : Decidable (inIntRange x) := by unfold inIntRange; infer_instance

/-- The tokens of a file text: newlines become spaces, then the text is cut at every space. -/
def tokens (text : GoString) : List GoString :=
  strings.Split (strings.Replace text newline space) space

/-- The candidate as the specification compares it: without its last byte when it is longer
than 2 bytes. -/
def truncated (candidate : GoString) : GoString :=
  if candidate.length > 2 then candidate.dropLast else candidate

/-- The specification's rule for one token: the Typo it counts towards, if any.  A token
without a candidate counts for nothing; otherwise it counts for the Typo of the token and the
truncated candidate when the two differ after lower-casing. -/
def typoOf (ToLower model : GoString → GoString) (word : GoString) : Option Typo :=
  if model word = [] then none
  else if ToLower word = ToLower (truncated (model word)) then none
  else some ⟨word, truncated (model word)⟩

/-- The number of tokens of a text that count towards the Typo `t`. -/
def occurrences (ToLower model : GoString → GoString) (t : Typo) (text : GoString) : Nat :=
  ((tokens text).filter (fun w => decide (typoOf ToLower model w = some t))).length

/-- The occurrences that the tokens `ws` count, in order. -/
def countedTypos (ToLower model : GoString → GoString) (ws : List GoString) :
    List (Typo × GoInt) :=
  (ws.filterMap (typoOf ToLower model)).map (fun t => (t, 1))

/-- A model that suggests `The` followed by a carriage return for `Teh` and every other
token followed by a carriage return for itself. -/
def echoModel (w : GoString) : GoString :=
  if w = ascii "Teh" then ascii "The" ++ [13] else w ++ [13]

/-- A model that suggests `The` followed by a carriage return for `Teh` and nothing for any
other token. -/
def tehModel (w : GoString) : GoString :=
  if w = ascii "Teh" then ascii "The" ++ [13] else []

/-- A model that suggests exactly `The` for `Teh` and nothing for any other token. -/
def plainModel (w : GoString) : GoString :=
  if w = ascii "Teh" then ascii "The" else []

/-- A model that suggests exactly `The` for `Teh` and every other token for itself. -/
def plainEchoModel (w : GoString) : GoString :=
  if w = ascii "Teh" then ascii "The" else w

/-- The error of reading a path that does not exist. -/
def noSuchFile : GoError := ⟨ascii "no such file or directory"⟩

/-- A file system with the two files `a.txt` and `b.txt`, each holding the text `Teh`, and
nothing else. -/
def twoFiles (path : GoString) : Except GoError GoString :=
  if path = ascii "a.txt" ∨ path = ascii "b.txt" then Except.ok (ascii "Teh")
  else Except.error noSuchFile

/-- A file system with the files of `twoFiles` and a file `test` holding the text `cta`. -/
def threeFiles (path : GoString) : Except GoError GoString :=
  if path = ascii "test" then Except.ok (ascii "cta") else twoFiles path

/-- A glob that matches the two files `a.txt` and `b.txt`. -/
def globTwo (_pattern : GoString) : Except GoError (List GoString) :=
  Except.ok [ascii "a.txt", ascii "b.txt"]

/-- A glob that matches the one file `a.txt`. -/
def globOne (_pattern : GoString) : Except GoError (List GoString) :=
  Except.ok [ascii "a.txt"]

/-- A model that suggests `The` for `Teh` and `cat` for `cta`, each followed by a carriage
return, and nothing for any other token. -/
def twoWordModel (w : GoString) : GoString :=
  if w = ascii "Teh" then ascii "The" ++ [13]
  else if w = ascii "cta" then ascii "cat" ++ [13] else []

/-- The answer of `os.Stat` in a directory that holds `a.txt` and `b.txt` only: every other
path does not exist. -/
def notExistTwo (path : GoString) : Bool :=
  !(decide (path = ascii "a.txt") || decide (path = ascii "b.txt"))

/-- The answer of `os.Stat` in a directory that holds `a.txt`, `b.txt` and `test`. -/
def notExistThree (path : GoString) : Bool :=
  !(decide (path = ascii "test") || decide (path = ascii "a.txt")
    || decide (path = ascii "b.txt"))

/-- A file system with the two files `[` and `test`, each holding the text `Teh`. -/
def bracketFiles (path : GoString) : Except GoError GoString :=
  if path = ascii "[" ∨ path = ascii "test" then Except.ok (ascii "Teh")
  else Except.error noSuchFile

/-- The answer of `os.Stat` in the directory of `bracketFiles`. -/
def notExistBracket (path : GoString) : Bool :=
  !(decide (path = ascii "[") || decide (path = ascii "test"))

/-- The glob of the directory of `bracketFiles` for the two patterns used: `[` is a malformed
pattern, and any other pattern stands for `?`, which matches the file `[`. -/
def globBracket (pattern : GoString) : Except GoError (List GoString) :=
  if pattern = ascii "[" then Except.error ⟨ascii "syntax error in pattern"⟩
  else Except.ok [ascii "["]

/-- A file system whose only file is `test`, holding the text `Teh cta Teh`. -/
def onlyTest (path : GoString) : Except GoError GoString :=
  if path = testPath then Except.ok (ascii "Teh cta Teh") else Except.error noSuchFile

/-! ## Go integer arithmetic -/

theorem wrapInt_range (x : Int) :
    -9223372036854775808 ≤ wrapInt x ∧ wrapInt x < 9223372036854775808 := by
  unfold wrapInt; omega

theorem GoInt.ext {a b : GoInt} (h : a.val = b.val) : a = b := by
  cases a; cases b; simp only [GoInt.mk.injEq]; exact h

theorem GoInt.add_val (a b : GoInt) : (a + b).val = wrapInt (a.val + b.val) := rfl

theorem GoInt.wrap_val (x : Int) : (GoInt.wrap x).val = wrapInt x := rfl

theorem GoInt.zero_val : (0 : GoInt).val = 0 := by decide

theorem GoInt.one_val : (1 : GoInt).val = 1 := by decide

theorem wrapInt_of_inRange {x : Int}
    (h : -9223372036854775808 ≤ x ∧ x < 9223372036854775808) : wrapInt x = x := by
  unfold wrapInt; omega

theorem wrapInt_add_left (a b : Int) : wrapInt (wrapInt a + b) = wrapInt (a + b) := by
  unfold wrapInt; omega

theorem wrapInt_add_right (a b : Int) : wrapInt (a + wrapInt b) = wrapInt (a + b) := by
  unfold wrapInt; omega

theorem GoInt.wrapInt_val (a : GoInt) : wrapInt a.val = a.val :=
  wrapInt_of_inRange a.inRange

theorem GoInt.add_comm (a b : GoInt) : a + b = b + a := by
  apply GoInt.ext; rw [GoInt.add_val, GoInt.add_val, Int.add_comm]

theorem GoInt.add_assoc (a b c : GoInt) : a + b + c = a + (b + c) := by
  apply GoInt.ext
  rw [GoInt.add_val, GoInt.add_val, GoInt.add_val, GoInt.add_val, wrapInt_add_left,
    wrapInt_add_right, Int.add_assoc]

theorem GoInt.add_zero (a : GoInt) : a + 0 = a := by
  apply GoInt.ext
  rw [GoInt.add_val, GoInt.zero_val, Int.add_zero, GoInt.wrapInt_val]

theorem goSum_val (cs : List GoInt) : (goSum cs).val = wrapInt (intSum cs) := by
  induction cs with
  | nil => decide
  | cons c cs ih =>
    show (c + goSum cs).val = wrapInt (c.val + intSum cs)
    rw [GoInt.add_val, ih, wrapInt_add_right]

theorem goSum_append (as bs : List GoInt) : goSum (as ++ bs) = goSum as + goSum bs := by
  apply GoInt.ext
  rw [GoInt.add_val, goSum_val, goSum_val, goSum_val, wrapInt_add_left, wrapInt_add_right]
  simp [intSum]

theorem goSum_perm {as bs : List GoInt} (h : as.Perm bs) : goSum as = goSum bs := by
  apply GoInt.ext
  rw [goSum_val, goSum_val]
  unfold intSum
  rw [(h.map (fun c => c.val)).sum_eq]

theorem goSum_replicate_one (n : Nat) : goSum (List.replicate n 1) = GoInt.wrap n := by
  apply GoInt.ext
  rw [goSum_val, GoInt.wrap_val]
  congr 1
  induction n with
  | zero => rfl
  | succ n ih =>
    simp only [intSum, List.replicate_succ, List.map_cons, List.sum_cons] at ih ⊢
    rw [ih, GoInt.one_val]; push_cast; omega

/-! ## Go maps as association lists -/

theorem mapLookup_eq_none {m : errorMap} {t : Typo} :
    mapLookup m t = none ↔ t ∉ mapKeys m := by
  induction m with
  | nil => simp [mapLookup, mapKeys]
  | cons p m ih =>
    obtain ⟨k, v⟩ := p
    by_cases h : k = t
    · simp [mapLookup, mapKeys, h]
    · simp only [mapLookup, if_neg h, ih, mapKeys, List.map_cons, List.mem_cons, not_or]
      exact ⟨fun h2 => ⟨fun e => h e.symm, h2⟩, fun h2 => h2.2⟩

theorem mapLookup_eq_some {m : errorMap} (nd : (mapKeys m).Nodup) {t : Typo} {v : GoInt} :
    mapLookup m t = some v ↔ (t, v) ∈ m := by
  induction m with
  | nil => simp [mapLookup]
  | cons p m ih =>
    obtain ⟨k, w⟩ := p
    have nd2 : k ∉ mapKeys m ∧ (mapKeys m).Nodup := by
      simpa [mapKeys] using nd
    by_cases h : k = t
    · subst h
      simp only [mapLookup, if_true, Option.some.injEq, List.mem_cons, Prod.mk.injEq, true_and]
      constructor
      · intro e; exact Or.inl e.symm
      · rintro (e | e)
        · exact e.symm
        · exact absurd (List.mem_map_of_mem Prod.fst e) nd2.1
    · simp only [mapLookup, if_neg h, ih nd2.2, List.mem_cons, Prod.mk.injEq]
      constructor
      · intro e; exact Or.inr e
      · rintro (e | e)
        · exact absurd e.1.symm h
        · exact e

theorem mapLookup_perm {m₁ m₂ : errorMap} (h : m₁.Perm m₂) (nd : (mapKeys m₁).Nodup)
    (t : Typo) : mapLookup m₁ t = mapLookup m₂ t := by
  have nd2 : (mapKeys m₂).Nodup := ((h.map Prod.fst).nodup_iff).1 nd
  cases h1 : mapLookup m₁ t with
  | none =>
    have : t ∉ mapKeys m₂ := fun hm =>
      (mapLookup_eq_none.1 h1) (((h.map Prod.fst).mem_iff).2 hm)
    exact (mapLookup_eq_none.2 this).symm
  | some v =>
    exact ((mapLookup_eq_some nd2).2 (h.mem_iff.1 ((mapLookup_eq_some nd).1 h1))).symm

theorem mapStore_of_absent {m : errorMap} {t : Typo} (h : t ∉ mapKeys m) (v : GoInt) :
    mapStore m t v = m ++ [(t, v)] := by
  induction m with
  | nil => rfl
  | cons p m ih =>
    obtain ⟨k, w⟩ := p
    have hk : ¬ k = t := fun e => h (by simp [mapKeys, e])
    have ht : t ∉ mapKeys m := fun e => h (by simp only [mapKeys, List.map_cons, List.mem_cons]; exact Or.inr e)
    simp only [mapStore, if_neg hk, ih ht, List.cons_append]

theorem mapKeys_mapStore_of_present {m : errorMap} {t : Typo} (h : t ∈ mapKeys m) (v : GoInt) :
    mapKeys (mapStore m t v) = mapKeys m := by
  induction m with
  | nil => simp [mapKeys] at h
  | cons p m ih =>
    obtain ⟨k, w⟩ := p
    by_cases hk : k = t
    · simp [mapStore, hk, mapKeys]
    · have ht : t ∈ mapKeys m := by
        simp only [mapKeys, List.map_cons, List.mem_cons] at h
        rcases h with e | e
        · exact absurd e.symm hk
        · exact e
      simp only [mapStore, if_neg hk, mapKeys, List.map_cons, List.cons.injEq, true_and]
      exact ih ht

theorem mapLookup_mapStore (m : errorMap) (t t' : Typo) (v : GoInt) :
    mapLookup (mapStore m t v) t' = if t = t' then some v else mapLookup m t' := by
  induction m with
  | nil => simp [mapStore, mapLookup]
  | cons p m ih =>
    obtain ⟨k, w⟩ := p
    by_cases hk : k = t
    · subst hk
      by_cases h2 : k = t' <;> simp [mapStore, mapLookup, h2]
    · by_cases h2 : k = t'
      · subst h2
        have : ¬ t = k := fun e => hk e.symm
        simp [mapStore, mapLookup, hk, this]
      · simp [mapStore, mapLookup, hk, h2, ih]

theorem mapKeys_nodup_mapStore {m : errorMap} (nd : (mapKeys m).Nodup) (t : Typo) (v : GoInt) :
    (mapKeys (mapStore m t v)).Nodup := by
  by_cases h : t ∈ mapKeys m
  · rw [mapKeys_mapStore_of_present h]; exact nd
  · rw [mapStore_of_absent h]
    simp only [mapKeys, List.map_append, List.map_cons, List.map_nil]
    apply List.Nodup.append nd (List.nodup_singleton t)
    intro a ha hb
    simp only [List.mem_singleton] at hb
    subst hb
    exact h ha

/-! ## Counting into a map -/

theorem updateStep_eq_bump (m : errorMap) (item : ErrorCounts) :
    updateStep m item = bump m item.toTypo item.Count := rfl

theorem addError_eq_bump (t : Typo) (m : errorMap) : addError t m = bump m t 1 := rfl

theorem mapLookup_bump (m : errorMap) (t t' : Typo) (c : GoInt) :
    mapLookup (bump m t c) t' =
      if t = t' then some (match mapLookup m t with | none => c | some v => v + c)
      else mapLookup m t' := by
  unfold bump
  cases h : mapLookup m t <;> simp [mapLookup_mapStore]

theorem mapKeys_nodup_bump {m : errorMap} (nd : (mapKeys m).Nodup) (t : Typo) (c : GoInt) :
    (mapKeys (bump m t c)).Nodup := by
  unfold bump
  cases h : mapLookup m t <;> exact mapKeys_nodup_mapStore nd _ _

theorem mapKeys_nodup_tally (ps : List (Typo × GoInt)) :
    ∀ {m : errorMap}, (mapKeys m).Nodup → (mapKeys (tally m ps)).Nodup := by
  induction ps with
  | nil => intro m nd; exact nd
  | cons p ps ih =>
    intro m nd
    exact ih (mapKeys_nodup_bump nd p.1 p.2)

theorem mapLookup_tally (t : Typo) (ps : List (Typo × GoInt)) :
    ∀ m : errorMap, mapLookup (tally m ps) t =
      match mapLookup m t with
      | some v => some (v + goSum (entriesFor t ps))
      | none => if entriesFor t ps = [] then none else some (goSum (entriesFor t ps)) := by
  induction ps with
  | nil =>
    intro m
    cases h : mapLookup m t with
    | none => simp [tally, entriesFor, h]
    | some v =>
      simp only [tally, entriesFor, List.foldl_nil, h, List.filter_nil, List.map_nil]
      rw [show goSum [] = 0 from rfl, GoInt.add_zero]
  | cons p ps ih =>
    intro m
    obtain ⟨k, c⟩ := p
    show mapLookup (tally (bump m k c) ps) t = _
    rw [ih (bump m k c), mapLookup_bump]
    by_cases hk : k = t
    · subst hk
      have e : entriesFor k ((k, c) :: ps) = c :: entriesFor k ps := by
        simp [entriesFor]
      rw [e]
      cases h : mapLookup m k with
      | none => simp [goSum]
      | some v => simp [goSum, GoInt.add_assoc]
    · have e : entriesFor t ((k, c) :: ps) = entriesFor t ps := by
        simp [entriesFor, hk]
      rw [e, if_neg hk]

theorem mapLookup_tally_nil (t : Typo) (ps : List (Typo × GoInt)) :
    mapLookup (tally [] ps) t =
      if entriesFor t ps = [] then none else some (goSum (entriesFor t ps)) := by
  rw [mapLookup_tally]; rfl

theorem foldl_updateStep (errors : List ErrorCounts) (m : errorMap) :
    errors.foldl updateStep m = tally m (fromRecords errors) := by
  induction errors generalizing m with
  | nil => rfl
  | cons r rs ih => exact ih (updateStep m r)

theorem entriesFor_fromRecords (t : Typo) (xs : List ErrorCounts) :
    entriesFor t (fromRecords xs) = countsFor t xs := by
  induction xs with
  | nil => rfl
  | cons r rs ih =>
    by_cases h : r.toTypo = t
    · simp only [entriesFor, fromRecords, countsFor, List.map_cons, List.filter_cons, h,
        decide_True, if_true, List.cons.injEq, true_and] at ih ⊢
      exact ih
    · simp only [entriesFor, fromRecords, countsFor, List.map_cons, List.filter_cons, h,
        decide_False] at ih ⊢
      exact ih

/-! ## Sorting -/

theorem insertSorted_perm {α : Type} (less : α → α → Bool) (x : α) (l : List α) :
    (insertSorted less x l).Perm (x :: l) := by
  induction l with
  | nil => exact List.Perm.refl _
  | cons y ys ih =>
    unfold insertSorted
    split
    · exact ((List.Perm.cons y ih).trans (List.Perm.swap x y ys))
    · exact List.Perm.refl _

theorem sortSlice_perm {α : Type} (less : α → α → Bool) (l : List α) :
    (sortSlice less l).Perm l := by
  induction l with
  | nil => exact List.Perm.refl _
  | cons x xs ih =>
    exact (insertSorted_perm less x (sortSlice less xs)).trans (List.Perm.cons x ih)

theorem insertSorted_byCount (x : ErrorCounts) (l : List ErrorCounts)
    (h : l.Pairwise (fun a b => a.Count.val ≥ b.Count.val)) :
    (insertSorted byCount x l).Pairwise (fun a b => a.Count.val ≥ b.Count.val) := by
  induction l with
  | nil => simp [insertSorted]
  | cons y ys ih =>
    have hy := List.pairwise_cons.1 h
    unfold insertSorted
    by_cases c : y.Count.val > x.Count.val
    · rw [if_pos (by simp [byCount, c])]
      refine List.pairwise_cons.2 ⟨?_, ih hy.2⟩
      intro z hz
      rcases List.mem_cons.1 ((insertSorted_perm byCount x ys).mem_iff.1 hz) with e | e
      · subst e; omega
      · exact hy.1 z e
    · rw [if_neg (by simp [byCount, c])]
      refine List.pairwise_cons.2 ⟨?_, h⟩
      intro z hz
      rcases List.mem_cons.1 hz with e | e
      · subst e; omega
      · have := hy.1 z e; omega

theorem sortSlice_byCount (l : List ErrorCounts) :
    (sortSlice byCount l).Pairwise (fun a b => a.Count.val ≥ b.Count.val) := by
  induction l with
  | nil => exact List.Pairwise.nil
  | cons x xs ih => exact insertSorted_byCount x _ ih

/-! ## From the map to the report -/

theorem fromRecords_toRecords (m : errorMap) : fromRecords (toRecords m) = m := by
  induction m with
  | nil => rfl
  | cons p m ih =>
    simp only [toRecords, fromRecords, List.map_cons, List.cons.injEq] at ih ⊢
    exact ⟨trivial, ih⟩

theorem countOf_eq_mapLookup (l : List ErrorCounts) (t : Typo) :
    countOf l t = mapLookup (fromRecords l) t := by
  induction l with
  | nil => rfl
  | cons r rs ih =>
    simp only [countOf, fromRecords, List.map_cons, mapLookup] at ih ⊢
    rw [ih]

theorem mapKeys_fromRecords (l : List ErrorCounts) :
    mapKeys (fromRecords l) = l.map (fun r => r.toTypo) := by
  simp [mapKeys, fromRecords]

theorem report_perm (ρ : MapRange) (m : errorMap) : (report ρ m).Perm (toRecords m) :=
  (sortSlice_perm _ _).trans ((ρ.isPerm m).map _)

theorem fromRecords_report_perm (ρ : MapRange) (m : errorMap) :
    (fromRecords (report ρ m)).Perm m := by
  have h := (report_perm ρ m).map (fun r : ErrorCounts => (r.toTypo, r.Count))
  have e := fromRecords_toRecords m
  unfold fromRecords at e ⊢
  rw [e] at h
  exact h

theorem report_typos_nodup (ρ : MapRange) {m : errorMap} (nd : (mapKeys m).Nodup) :
    ((report ρ m).map (fun r => r.toTypo)).Nodup := by
  rw [← mapKeys_fromRecords]
  exact (((fromRecords_report_perm ρ m).map Prod.fst).nodup_iff).2 nd

theorem countOf_report (ρ : MapRange) {m : errorMap} (nd : (mapKeys m).Nodup) (t : Typo) :
    countOf (report ρ m) t = mapLookup m t := by
  rw [countOf_eq_mapLookup]
  refine mapLookup_perm (fromRecords_report_perm ρ m) ?_ t
  rw [mapKeys_fromRecords]
  exact report_typos_nodup ρ nd

theorem mem_report (ρ : MapRange) {m : errorMap} (nd : (mapKeys m).Nodup) (r : ErrorCounts) :
    r ∈ report ρ m ↔ mapLookup m r.toTypo = some r.Count := by
  rw [mapLookup_eq_some nd, (report_perm ρ m).mem_iff]
  unfold toRecords
  constructor
  · intro h
    obtain ⟨p, hp, e⟩ := List.mem_map.1 h
    subst e
    exact hp
  · intro h
    exact List.mem_map.2 ⟨(r.toTypo, r.Count), h, rfl⟩

theorem insertSorted_of_sorted (x : ErrorCounts) (l : List ErrorCounts)
    (h : ∀ y ∈ l, x.Count.val ≥ y.Count.val) : insertSorted byCount x l = x :: l := by
  cases l with
  | nil => rfl
  | cons y ys =>
    have hy := h y (List.mem_cons_self _ _)
    unfold insertSorted
    rw [if_neg (by simp only [byCount, decide_eq_true_eq]; omega)]

theorem sortSlice_of_sorted {l : List ErrorCounts}
    (h : l.Pairwise (fun a b => a.Count.val ≥ b.Count.val)) : sortSlice byCount l = l := by
  induction l with
  | nil => rfl
  | cons x xs ih =>
    have hx := List.pairwise_cons.1 h
    show insertSorted byCount x (sortSlice byCount xs) = x :: xs
    rw [ih hx.2]
    exact insertSorted_of_sorted x xs hx.1

/-- Every arrangement of the entries of a map that is sorted by count is the report of the
map under some `range` order: the model leaves out no outcome of an unstable sort. -/
theorem report_complete (m : errorMap) (s : List ErrorCounts) (hp : s.Perm (toRecords m))
    (hs : s.Pairwise (fun a b => a.Count.val ≥ b.Count.val)) :
    ∃ ρ : MapRange, report ρ m = s := by
  have hm : (fromRecords s).Perm m := by
    have h := hp.map (fun r : ErrorCounts => (r.toTypo, r.Count))
    have e := fromRecords_toRecords m
    unfold fromRecords at e ⊢
    rw [e] at h
    exact h
  refine ⟨⟨fun m' => if m'.Perm m then fromRecords s else m', ?_⟩, ?_⟩
  · intro m'
    show (if m'.Perm m then fromRecords s else m').Perm m'
    by_cases h : m'.Perm m
    · rw [if_pos h]; exact hm.trans h.symm
    · rw [if_neg h]
  · unfold report
    simp only [List.Perm.refl, if_true]
    have e : toRecords (fromRecords s) = s := by
      unfold toRecords fromRecords
      rw [List.map_map]
      exact List.map_id _
    rw [e]
    exact sortSlice_of_sorted hs

theorem updateCounts_eq_report (ρ : MapRange) (xs : List ErrorCounts) :
    updateCounts ρ xs = report ρ (tally [] (fromRecords xs)) := by
  unfold updateCounts report
  rw [foldl_updateStep]
  rfl

theorem mapKeys_nodup_tally_nil (ps : List (Typo × GoInt)) : (mapKeys (tally [] ps)).Nodup :=
  mapKeys_nodup_tally ps (m := []) List.nodup_nil

theorem updateCounts_typos_nodup (ρ : MapRange) (xs : List ErrorCounts) :
    ((updateCounts ρ xs).map (fun r => r.toTypo)).Nodup := by
  rw [updateCounts_eq_report]
  exact report_typos_nodup ρ (mapKeys_nodup_tally_nil _)

theorem countOf_updateCounts (ρ : MapRange) (xs : List ErrorCounts) (t : Typo) :
    countOf (updateCounts ρ xs) t = total (countsFor t xs) := by
  rw [updateCounts_eq_report, countOf_report ρ (mapKeys_nodup_tally_nil _),
    mapLookup_tally_nil, entriesFor_fromRecords]
  rfl

theorem countOf_eq_some {l : List ErrorCounts} (nd : (l.map (fun r => r.toTypo)).Nodup)
    (r : ErrorCounts) : r ∈ l ↔ countOf l r.toTypo = some r.Count := by
  rw [countOf_eq_mapLookup, mapLookup_eq_some (by rw [mapKeys_fromRecords]; exact nd)]
  unfold fromRecords
  constructor
  · intro h; exact List.mem_map.2 ⟨r, h, rfl⟩
  · intro h
    obtain ⟨r', hr, e⟩ := List.mem_map.1 h
    have e1 : r'.toTypo = r.toTypo := congrArg Prod.fst e
    have e2 : r'.Count = r.Count := congrArg Prod.snd e
    have : r' = r := by
      cases r'; cases r; simp only [ErrorCounts.mk.injEq]; exact ⟨e1, e2⟩
    exact this ▸ hr

theorem countOf_eq_none {l : List ErrorCounts} {t : Typo} :
    countOf l t = none ↔ ∀ r ∈ l, r.toTypo ≠ t := by
  rw [countOf_eq_mapLookup, mapLookup_eq_none, mapKeys_fromRecords]
  simp only [List.mem_map, not_exists, not_and, ne_eq]

theorem countsFor_of_nodup {l : List ErrorCounts} (nd : (l.map (fun r => r.toTypo)).Nodup)
    (t : Typo) : countsFor t l = (countOf l t).toList := by
  induction l with
  | nil => rfl
  | cons r rs ih =>
    have nd2 : r.toTypo ∉ rs.map (fun r => r.toTypo) ∧ (rs.map (fun r => r.toTypo)).Nodup :=
      List.nodup_cons.1 nd
    by_cases h : r.toTypo = t
    · have hn : countOf rs t = none := by
        rw [countOf_eq_none]
        intro r' hr' e
        exact nd2.1 (List.mem_map.2 ⟨r', hr', e.trans h.symm⟩)
      have := ih nd2.2
      rw [hn] at this
      simp only [countsFor, List.filter_cons, h, decide_True, if_true, List.map_cons, countOf,
        Option.toList] at this ⊢
      rw [this]
    · have := ih nd2.2
      simp only [countsFor, List.filter_cons, h, decide_False, countOf, if_false] at this ⊢
      exact this

theorem countsFor_append (t : Typo) (A B : List ErrorCounts) :
    countsFor t (A ++ B) = countsFor t A ++ countsFor t B := by
  simp [countsFor]

theorem countsFor_perm (t : Typo) {xs ys : List ErrorCounts} (h : xs.Perm ys) :
    (countsFor t xs).Perm (countsFor t ys) :=
  (h.filter _).map _

theorem total_perm {as bs : List GoInt} (h : as.Perm bs) : total as = total bs := by
  unfold total
  by_cases e : as = []
  · subst e; rw [List.Perm.nil_eq h]
  · have e2 : bs ≠ [] := fun e3 => e (by subst e3; exact List.Perm.eq_nil h)
    rw [if_neg e, if_neg e2, goSum_perm h]

theorem goSum_singleton (c : GoInt) : goSum [c] = c := GoInt.add_zero c

theorem total_toList_append (as bs : List GoInt) :
    total ((total as).toList ++ bs) = total (as ++ bs) := by
  unfold total
  by_cases e : as = []
  · subst e; simp
  · rw [if_neg e]
    simp only [Option.toList, List.singleton_append]
    rw [if_neg (by simp), if_neg (by simp [e])]
    rw [goSum_append, ← goSum_singleton (goSum as), ← goSum_append]
    simp [goSum_singleton]

theorem total_append_toList (as bs : List GoInt) :
    total (as ++ (total bs).toList) = total (as ++ bs) := by
  rw [total_perm List.perm_append_comm, total_toList_append, total_perm List.perm_append_comm]

theorem filter_typo_length_le_one {l : List ErrorCounts}
    (nd : (l.map (fun r => r.toTypo)).Nodup) (t : Typo) :
    (l.filter (fun r => decide (r.toTypo = t))).length ≤ 1 := by
  have h := countsFor_of_nodup nd t
  have h2 : (countsFor t l).length = (l.filter (fun r => decide (r.toTypo = t))).length := by
    simp [countsFor]
  rw [← h2, h]
  cases countOf l t <;> simp [Option.toList]

theorem tally_of_distinct (ps : List (Typo × GoInt)) :
    ∀ m : errorMap, (mapKeys (m ++ ps)).Nodup → tally m ps = m ++ ps := by
  induction ps with
  | nil => intro m _; simp [tally]
  | cons p ps ih =>
    intro m nd
    have hp : p.1 ∉ mapKeys m := by
      intro hm
      simp only [mapKeys, List.map_append, List.map_cons] at nd hm
      exact (List.nodup_append.1 nd).2.2 hm (List.mem_cons_self _ _)
    have hb : bump m p.1 p.2 = m ++ [p] := by
      unfold bump
      rw [mapLookup_eq_none.2 hp]
      exact mapStore_of_absent hp p.2
    show tally (bump m p.1 p.2) ps = _
    rw [hb, ih (m ++ [p]) (by simpa using nd)]
    simp

theorem updateCounts_perm_self (ρ : MapRange) {xs : List ErrorCounts}
    (nd : (xs.map (fun r => r.toTypo)).Nodup) : (updateCounts ρ xs).Perm xs := by
  rw [updateCounts_eq_report]
  have h := tally_of_distinct (fromRecords xs) []
    (by rw [List.nil_append, mapKeys_fromRecords]; exact nd)
  rw [h, List.nil_append]
  have h2 := report_perm ρ (fromRecords xs)
  have e : toRecords (fromRecords xs) = xs := by
    unfold toRecords fromRecords
    rw [List.map_map]
    exact List.map_id _
  rw [e] at h2
  exact h2

theorem checkText_eq_report (ρ : MapRange) (ToLower model : GoString → GoString)
    (text : GoString) :
    checkText ρ ToLower model text = report ρ ((tokens text).foldl (checkWord ToLower model) []) :=
  rfl

theorem adjacent_of_pairwise {l : List ErrorCounts}
    (h : l.Pairwise (fun a b => a.Count.val ≥ b.Count.val)) (i : Nat) (hi : i + 1 < l.length) :
    l[i].Count.val ≥ l[i + 1].Count.val :=
  List.pairwise_iff_getElem.1 h i (i + 1) (by omega) hi (by omega)

theorem mem_updateCounts (ρ : MapRange) (xs : List ErrorCounts) (r : ErrorCounts) :
    r ∈ updateCounts ρ xs ↔
      countsFor r.toTypo xs ≠ [] ∧ r.Count = goSum (countsFor r.toTypo xs) := by
  rw [countOf_eq_some (updateCounts_typos_nodup ρ xs), countOf_updateCounts]
  unfold total
  by_cases e : countsFor r.toTypo xs = []
  · simp [e]
  · rw [if_neg e]
    simp only [Option.some.injEq, ne_eq, e, not_false_eq_true, true_and]
    exact eq_comm

theorem countsFor_ne_nil (t : Typo) (xs : List ErrorCounts) :
    countsFor t xs ≠ [] ↔ ∃ r ∈ xs, r.toTypo = t := by
  unfold countsFor
  rw [ne_eq, List.map_eq_nil_iff, List.filter_eq_nil_iff]
  simp

/-! ## The token loop -/

theorem dropTrailingByte_eq_truncated (c : GoString) : dropTrailingByte c = truncated c := by
  unfold dropTrailingByte truncated
  rw [List.dropLast_eq_take]

theorem checkWord_eq (ToLower model : GoString → GoString) (m : errorMap) (w : GoString) :
    checkWord ToLower model m w =
      match typoOf ToLower model w with
      | none => m
      | some t => bump m t 1 := by
  unfold checkWord typoOf
  simp only [dropTrailingByte_eq_truncated, List.length_eq_zero, ne_eq, ite_not]
  by_cases h1 : model w = []
  · simp [h1]
  · by_cases h2 : ToLower w = ToLower (truncated (model w))
    · simp [h1, h2]
    · simp only [h1, h2, if_false]
      rfl

theorem foldl_checkWord (ToLower model : GoString → GoString) (ws : List GoString) :
    ∀ m : errorMap,
      ws.foldl (checkWord ToLower model) m = tally m (countedTypos ToLower model ws) := by
  induction ws with
  | nil => intro m; rfl
  | cons w ws ih =>
    intro m
    rw [List.foldl_cons, ih, checkWord_eq]
    cases h : typoOf ToLower model w with
    | none => simp [countedTypos, h]
    | some t => simp [countedTypos, h, tally]

theorem entriesFor_countedTypos (ToLower model : GoString → GoString) (t : Typo)
    (ws : List GoString) :
    entriesFor t (countedTypos ToLower model ws)
      = List.replicate (ws.filter (fun w => decide (typoOf ToLower model w = some t))).length 1 := by
  induction ws with
  | nil => rfl
  | cons w ws ih =>
    unfold entriesFor countedTypos at ih ⊢
    cases h : typoOf ToLower model w with
    | none => simp only [List.filterMap_cons, h, List.filter_cons]; simpa using ih
    | some t' =>
      by_cases e : t' = t
      · subst e
        simp only [List.filterMap_cons, h, List.map_cons, List.filter_cons, decide_True, if_true,
          List.length_cons, List.replicate_succ, List.cons.injEq, true_and]
        simpa using ih
      · simp only [List.filterMap_cons, h, List.map_cons, List.filter_cons, e, decide_False,
          Option.some.injEq]
        simpa using ih

theorem checkText_typos_nodup (ρ : MapRange) (ToLower model : GoString → GoString)
    (text : GoString) : ((checkText ρ ToLower model text).map (fun r => r.toTypo)).Nodup := by
  rw [checkText_eq_report, foldl_checkWord]
  exact report_typos_nodup ρ (mapKeys_nodup_tally_nil _)

theorem countOf_checkText (ρ : MapRange) (ToLower model : GoString → GoString)
    (text : GoString) (t : Typo) :
    countOf (checkText ρ ToLower model text) t =
      if occurrences ToLower model t text = 0 then none
      else some (GoInt.wrap (occurrences ToLower model t text)) := by
  rw [checkText_eq_report, foldl_checkWord, countOf_report ρ (mapKeys_nodup_tally_nil _),
    mapLookup_tally_nil, entriesFor_countedTypos, goSum_replicate_one]
  unfold occurrences
  by_cases h : ((tokens text).filter (fun w => decide (typoOf ToLower model w = some t))).length = 0
  · rw [h]; simp
  · rw [if_neg h, if_neg]
    intro e
    exact h (by simpa using congrArg List.length e)

theorem mem_checkText (ρ : MapRange) (ToLower model : GoString → GoString)
    (text : GoString) (r : ErrorCounts) :
    r ∈ checkText ρ ToLower model text ↔
      0 < occurrences ToLower model r.toTypo text
        ∧ r.Count = GoInt.wrap (occurrences ToLower model r.toTypo text) := by
  rw [countOf_eq_some (checkText_typos_nodup ρ ToLower model text), countOf_checkText]
  by_cases h : occurrences ToLower model r.toTypo text = 0
  · simp [h]
  · rw [if_neg h]
    simp only [Option.some.injEq, Nat.pos_of_ne_zero h, true_and]
    exact eq_comm

theorem occurrences_le (ToLower model : GoString → GoString) (t : Typo) (text : GoString) :
    occurrences ToLower model t text ≤ (tokens text).length :=
  List.length_filter_le _ _

theorem occurrences_pos (ToLower model : GoString → GoString) (t : Typo) (text : GoString) :
    0 < occurrences ToLower model t text ↔
      ∃ w ∈ tokens text, typoOf ToLower model w = some t := by
  unfold occurrences
  rw [List.length_pos_iff_exists_mem]
  constructor
  · rintro ⟨w, hw⟩
    have := List.mem_filter.1 hw
    exact ⟨w, this.1, by simpa using this.2⟩
  · rintro ⟨w, hw, e⟩
    exact ⟨w, List.mem_filter.2 ⟨hw, by simpa using e⟩⟩

/-! ## Tokens -/

theorem Split_ne_nil (s : GoString) (sep : UInt8) : strings.Split s sep ≠ [] := by
  induction s with
  | nil => simp [strings.Split]
  | cons c cs ih =>
    unfold strings.Split
    split
    · simp
    · split <;> simp

theorem intercalate_cons_of_ne_nil (sep a : GoString) {l : List GoString} (h : l ≠ []) :
    List.intercalate sep (a :: l) = a ++ sep ++ List.intercalate sep l := by
  cases l with
  | nil => exact absurd rfl h
  | cons b l => simp [List.intercalate, List.intersperse]

theorem intercalate_Split (s : GoString) (sep : UInt8) :
    List.intercalate [sep] (strings.Split s sep) = s := by
  induction s with
  | nil => simp [strings.Split, List.intercalate]
  | cons c cs ih =>
    unfold strings.Split
    by_cases h : c = sep
    · rw [if_pos h, intercalate_cons_of_ne_nil _ _ (Split_ne_nil cs sep), ih, h]
      rfl
    · rw [if_neg h]
      cases hs : strings.Split cs sep with
      | nil => exact absurd hs (Split_ne_nil cs sep)
      | cons w ws =>
        rw [hs] at ih
        cases ws with
        | nil =>
          simp only [List.intercalate, List.intersperse, List.flatten, List.append_nil] at ih ⊢
          rw [ih]
        | cons w2 ws =>
          rw [intercalate_cons_of_ne_nil _ _ (by simp)] at ih ⊢
          rw [← ih]
          rfl

theorem not_mem_of_mem_Split (s : GoString) (sep : UInt8) :
    ∀ w ∈ strings.Split s sep, sep ∉ w := by
  induction s with
  | nil => simp [strings.Split]
  | cons c cs ih =>
    unfold strings.Split
    by_cases h : c = sep
    · rw [if_pos h]
      intro w hw
      rcases List.mem_cons.1 hw with e | e
      · subst e; simp
      · exact ih w e
    · rw [if_neg h]
      cases hs : strings.Split cs sep with
      | nil => exact absurd hs (Split_ne_nil cs sep)
      | cons w ws =>
        rw [hs] at ih
        intro w' hw'
        rcases List.mem_cons.1 hw' with e | e
        · subst e
          intro hm
          rcases List.mem_cons.1 hm with e2 | e2
          · exact h e2.symm
          · exact ih w (List.mem_cons_self _ _) e2
        · exact ih w' (List.mem_cons_of_mem _ e)

theorem Split_length (s : GoString) (sep : UInt8) :
    (strings.Split s sep).length = s.count sep + 1 := by
  induction s with
  | nil => rfl
  | cons c cs ih =>
    unfold strings.Split
    by_cases h : c = sep
    · rw [if_pos h, List.length_cons, ih, h, List.count_cons_self]
    · rw [if_neg h]
      cases hs : strings.Split cs sep with
      | nil => exact absurd hs (Split_ne_nil cs sep)
      | cons w ws =>
        rw [hs] at ih
        rw [List.count_cons_of_ne (fun e => h e.symm)]
        simpa using ih

theorem tokens_length_le (text : GoString) : (tokens text).length ≤ text.length + 1 := by
  unfold tokens
  rw [Split_length]
  have := List.count_le_length space (strings.Replace text newline space)
  unfold strings.Replace at this ⊢
  rw [List.length_map] at this
  omega

theorem mem_of_mem_Split (s : GoString) (sep : UInt8) :
    ∀ w ∈ strings.Split s sep, ∀ c ∈ w, c ∈ s := by
  induction s with
  | nil => simp [strings.Split]
  | cons c cs ih =>
    unfold strings.Split
    by_cases h : c = sep
    · rw [if_pos h]
      intro w hw b hb
      rcases List.mem_cons.1 hw with e | e
      · subst e; simp at hb
      · exact List.mem_cons_of_mem _ (ih w e b hb)
    · rw [if_neg h]
      cases hs : strings.Split cs sep with
      | nil => exact absurd hs (Split_ne_nil cs sep)
      | cons w ws =>
        rw [hs] at ih
        intro w' hw' b hb
        rcases List.mem_cons.1 hw' with e | e
        · subst e
          rcases List.mem_cons.1 hb with e2 | e2
          · rw [e2]; exact List.mem_cons_self _ _
          · exact List.mem_cons_of_mem _ (ih w (List.mem_cons_self _ _) b e2)
        · exact List.mem_cons_of_mem _ (ih w' (List.mem_cons_of_mem _ e) b hb)

theorem newline_not_mem_tokens (text : GoString) : ∀ w ∈ tokens text, newline ∉ w := by
  intro w hw hn
  have h1 := mem_of_mem_Split _ _ w hw newline hn
  unfold strings.Replace at h1
  obtain ⟨c, _, hc⟩ := List.mem_map.1 h1
  by_cases e : c = newline
  · rw [if_pos e] at hc; exact absurd hc (by decide)
  · rw [if_neg e] at hc; exact e hc

/-! ## The aggregator -/

/-- C1, counterexample: two records of one Typo with the counts 9223372036854775807 and 1 come
back as one record with the count -9223372036854775808, while the sum of the two counts is
9223372036854775808. -/
theorem updateCounts_sum_wraps :
    (updateCounts MapRange.inOrder [⟨tehThe, maxInt⟩, ⟨tehThe, 1⟩]).map (fun r => r.Count.val)
        = [-9223372036854775808]
      ∧ intSum (countsFor tehThe [⟨tehThe, maxInt⟩, ⟨tehThe, 1⟩]) = 9223372036854775808 := by
  decide

/-- C1 (amended): for every input list `xs` and Typo `t`, `updateCounts` returns a record for
`t` exactly when some input record has Typo `t`, returns at most one such record, and gives it
the sum of the counts of the input records for `t` in Go `int` arithmetic: that sum wrapped into
the signed 64-bit range, hence the exact sum whenever it lies in that range.  For `A ++ B` the
count is `countA(t) + countB(t)` in the same sense. -/
theorem updateCounts_sums (ρ : MapRange) (xs A B : List ErrorCounts) (t : Typo) :
    ((∃ r ∈ updateCounts ρ xs, r.toTypo = t) ↔ (∃ r ∈ xs, r.toTypo = t))
    ∧ ((updateCounts ρ xs).filter (fun r => decide (r.toTypo = t))).length ≤ 1
    ∧ (∀ r ∈ updateCounts ρ xs, r.toTypo = t →
        r.Count = goSum (countsFor t xs)
        ∧ r.Count.val = wrapInt (intSum (countsFor t xs))
        ∧ (inIntRange (intSum (countsFor t xs)) → r.Count.val = intSum (countsFor t xs)))
    ∧ (∀ r ∈ updateCounts ρ (A ++ B), r.toTypo = t →
        r.Count = goSum (countsFor t A) + goSum (countsFor t B)
        ∧ r.Count.val = wrapInt (intSum (countsFor t A) + intSum (countsFor t B))
        ∧ (inIntRange (intSum (countsFor t A) + intSum (countsFor t B)) →
            r.Count.val = intSum (countsFor t A) + intSum (countsFor t B))) := by
  refine ⟨?_, filter_typo_length_le_one (updateCounts_typos_nodup ρ xs) t, ?_, ?_⟩
  · rw [← countsFor_ne_nil t xs]
    constructor
    · rintro ⟨r, hr, e⟩
      subst e
      exact ((mem_updateCounts ρ xs r).1 hr).1
    · intro h
      refine ⟨⟨t, goSum (countsFor t xs)⟩, ?_, rfl⟩
      exact (mem_updateCounts ρ xs _).2 ⟨h, rfl⟩
  · intro r hr e
    subst e
    have h := ((mem_updateCounts ρ xs r).1 hr).2
    have hv : r.Count.val = wrapInt (intSum (countsFor r.toTypo xs)) := by
      rw [h, goSum_val]
    exact ⟨h, hv, fun hin => by rw [hv, wrapInt_of_inRange hin]⟩
  · intro r hr e
    subst e
    have h := ((mem_updateCounts ρ (A ++ B) r).1 hr).2
    rw [countsFor_append, goSum_append] at h
    have hv : r.Count.val
        = wrapInt (intSum (countsFor r.toTypo A) + intSum (countsFor r.toTypo B)) := by
      rw [h, GoInt.add_val, goSum_val, goSum_val, wrapInt_add_left, wrapInt_add_right]
    exact ⟨h, hv, fun hin => by rw [hv, wrapInt_of_inRange hin]⟩

/-- C1, worked example: the lists `A` and `B` hold one record of count 1 each for the same
Typo; the merged list holds one record and its count is 2. -/
theorem updateCounts_sums_witness :
    ∀ r ∈ updateCounts MapRange.inOrder ([⟨tehThe, 1⟩] ++ [⟨tehThe, 1⟩]), r.toTypo = tehThe →
      r.Count.val = 2 := by
  intro r hr e
  have h := (updateCounts_sums MapRange.inOrder [] [⟨tehThe, 1⟩] [⟨tehThe, 1⟩] tehThe).2.2.2 r hr e
  exact h.2.2 (by decide)

/-- C2: the records handed to the reporter are sorted by count, largest first, in both
modes: in the list that `updateCounts` returns and in the list that `spellcheckFile` returns,
every record's count is at least the count of the record after it. -/
theorem reports_sorted (ρ : MapRange) (xs : List ErrorCounts)
    (fs : GoString → Except GoError GoString) (ToLower model : GoString → GoString)
    (file : GoString) (batch : Bool) :
    (∀ (i : Nat) (h : i + 1 < (updateCounts ρ xs).length),
        (updateCounts ρ xs)[i].Count.val ≥ (updateCounts ρ xs)[i + 1].Count.val)
    ∧ (∀ (i : Nat) (h : i + 1 < (spellcheckFile ρ fs ToLower model file batch).1.length),
        (spellcheckFile ρ fs ToLower model file batch).1[i].Count.val
          ≥ (spellcheckFile ρ fs ToLower model file batch).1[i + 1].Count.val) := by
  constructor
  · intro i h
    exact adjacent_of_pairwise (sortSlice_byCount _) i h
  · have hs : ((spellcheckFile ρ fs ToLower model file batch).1).Pairwise
        (fun a b => a.Count.val ≥ b.Count.val) := by
      unfold spellcheckFile
      cases fs testPath with
      | error err => exact List.Pairwise.nil
      | ok fileContents => exact sortSlice_byCount _
    intro i h
    exact adjacent_of_pairwise hs i h

/-- C3: `updateCounts` is commutative and associative on the mapping from Typo to count:
a permutation of the input leaves every Typo's count unchanged, and with
`merge(A, B) = updateCounts(A ++ B)` the mappings of `merge(A, B)` and `merge(B, A)` agree, as
do those of `merge(merge(A, B), C)` and `merge(A, merge(B, C))`, whatever order each `range`
loop takes. -/
theorem updateCounts_comm_assoc (ρ₁ ρ₂ ρ₃ ρ₄ : MapRange) (xs ys A B C : List ErrorCounts)
    (t : Typo) (h : xs.Perm ys) :
    countOf (updateCounts ρ₁ xs) t = countOf (updateCounts ρ₂ ys) t
    ∧ countOf (updateCounts ρ₁ (A ++ B)) t = countOf (updateCounts ρ₂ (B ++ A)) t
    ∧ countOf (updateCounts ρ₁ (updateCounts ρ₂ (A ++ B) ++ C)) t
        = countOf (updateCounts ρ₃ (A ++ updateCounts ρ₄ (B ++ C))) t := by
  refine ⟨?_, ?_, ?_⟩
  · rw [countOf_updateCounts, countOf_updateCounts]
    exact total_perm (countsFor_perm t h)
  · rw [countOf_updateCounts, countOf_updateCounts]
    exact total_perm (countsFor_perm t List.perm_append_comm)
  · rw [countOf_updateCounts, countOf_updateCounts, countsFor_append, countsFor_append,
      countsFor_of_nodup (updateCounts_typos_nodup ρ₂ (A ++ B)),
      countsFor_of_nodup (updateCounts_typos_nodup ρ₄ (B ++ C)),
      countOf_updateCounts, countOf_updateCounts, total_toList_append, total_append_toList,
      countsFor_append, countsFor_append, List.append_assoc]

/-- C3, worked example: three records in two different orders, ranged over in two different
orders, give the Typo `Teh`/`The` the same count. -/
theorem updateCounts_comm_assoc_witness :
    countOf (updateCounts MapRange.inOrder
        [⟨tehThe, 1⟩, ⟨⟨ascii "cta", ascii "cat"⟩, 3⟩, ⟨tehThe, 2⟩]) tehThe
      = countOf (updateCounts MapRange.reversed
        [⟨⟨ascii "cta", ascii "cat"⟩, 3⟩, ⟨tehThe, 2⟩, ⟨tehThe, 1⟩]) tehThe :=
  (updateCounts_comm_assoc MapRange.inOrder MapRange.reversed MapRange.inOrder MapRange.inOrder
    [⟨tehThe, 1⟩, ⟨⟨ascii "cta", ascii "cat"⟩, 3⟩, ⟨tehThe, 2⟩]
    [⟨⟨ascii "cta", ascii "cat"⟩, 3⟩, ⟨tehThe, 2⟩, ⟨tehThe, 1⟩] [] [] [] tehThe
    (by decide)).1

/-! ## The checker -/

theorem report_singleton (ρ : MapRange) (p : Typo × GoInt) :
    report ρ [p] = [ErrorCounts.mk p.1 p.2] := by
  unfold report
  rw [List.perm_singleton.1 (ρ.isPerm [p])]
  rfl

theorem report_nil (ρ : MapRange) : report ρ [] = [] := by
  unfold report
  rw [List.perm_nil.1 (ρ.isPerm [])]
  rfl

theorem typoOf_eq_some (ToLower model : GoString → GoString) (w : GoString) (t : Typo) :
    typoOf ToLower model w = some t ↔
      model w ≠ [] ∧ ToLower w ≠ ToLower (truncated (model w))
        ∧ t = ⟨w, truncated (model w)⟩ := by
  unfold typoOf
  by_cases h1 : model w = []
  · simp [h1]
  · by_cases h2 : ToLower w = ToLower (truncated (model w))
    · simp [h1, h2]
    · simp only [h1, h2, if_false, Option.some.injEq, ne_eq, not_false_eq_true, true_and]
      exact eq_comm

/-- C4: the checker loop of `spellcheckFile` returns exactly the table of the specification.
The tokens are the pieces between single spaces of the text with every newline replaced by a
space (joined by single spaces they give that text back, and none holds a space or a newline).
A token counts towards `Typo{token, truncated candidate}` exactly when the model has a
candidate and token and truncated candidate differ after lower-casing.  The result has at most
one record per Typo, a record for `t` exactly when some token counts towards `t`, and its
count is the number of tokens counting towards `t` as a Go `int`, which is that number itself
for every text with fewer than 2^63 tokens. -/
theorem checkText_table (ρ : MapRange) (ToLower model : GoString → GoString) (text : GoString)
    (t : Typo) :
    (List.intercalate [space] (tokens text)
        = text.map (fun c => if c = newline then space else c)
      ∧ (tokens text).length = text.count space + text.count newline + 1
      ∧ ∀ w ∈ tokens text, space ∉ w ∧ newline ∉ w)
    ∧ (∀ w ∈ tokens text, (typoOf ToLower model w = some t ↔
        model w ≠ [] ∧ ToLower w ≠ ToLower (truncated (model w))
          ∧ t = ⟨w, truncated (model w)⟩))
    ∧ ((checkText ρ ToLower model text).filter (fun r => decide (r.toTypo = t))).length ≤ 1
    ∧ countOf (checkText ρ ToLower model text) t
        = (if occurrences ToLower model t text = 0 then none
           else some (GoInt.wrap (occurrences ToLower model t text)))
    ∧ (∀ r, r ∈ checkText ρ ToLower model text ↔
        0 < occurrences ToLower model r.toTypo text
          ∧ r.Count = GoInt.wrap (occurrences ToLower model r.toTypo text))
    ∧ (((tokens text).length : Int) < 9223372036854775808 →
        ∀ r ∈ checkText ρ ToLower model text, r.toTypo = t →
          r.Count.val = (occurrences ToLower model t text : Int)) := by
  refine ⟨⟨intercalate_Split _ _, ?_, fun w hw =>
      ⟨not_mem_of_mem_Split _ _ w hw, newline_not_mem_tokens text w hw⟩⟩,
    fun w _ => typoOf_eq_some ToLower model w t,
    filter_typo_length_le_one (checkText_typos_nodup ρ ToLower model text) t,
    countOf_checkText ρ ToLower model text t, mem_checkText ρ ToLower model text, ?_⟩
  · unfold tokens
    rw [Split_length]
    unfold strings.Replace
    congr 1
    induction text with
    | nil => rfl
    | cons c cs ih =>
      by_cases h1 : c = newline
      · have h2 : c ≠ space := by rw [h1]; decide
        rw [List.map_cons, if_pos h1, List.count_cons_self, ih,
          List.count_cons_of_ne (fun e => h2 e.symm), h1, List.count_cons_self]
        omega
      · rw [List.map_cons, if_neg h1, List.count_cons, List.count_cons, ih,
          List.count_cons_of_ne (fun e => h1 e.symm)]
        omega
  · intro hlen r hr e
    subst e
    have h := (mem_checkText ρ ToLower model text r).1 hr
    have hle := occurrences_le ToLower model r.toTypo text
    rw [h.2, GoInt.wrap_val]
    exact wrapInt_of_inRange ⟨by omega, by omega⟩

/-- C4, worked example: in the text `Teh  cat\tTeh\nTeh` the doubled space gives an empty
token and the tab stays inside its token; three tokens count towards `Teh`/`The`. -/
theorem checkText_table_witness :
    tokens [84, 101, 104, 32, 32, 99, 97, 116, 9, 84, 101, 104, 10, 84, 101, 104]
        = [ascii "Teh", [], [99, 97, 116, 9, 84, 101, 104], ascii "Teh"]
      ∧ countOf (checkText MapRange.reversed asciiToLower tehModel
          (ascii "Teh cat Teh Teh")) tehThe = some 3 :=
  ⟨by decide,
    (checkText_table MapRange.reversed asciiToLower tehModel (ascii "Teh cat Teh Teh")
      tehThe).2.2.2.1.trans (by decide)⟩

/-- C5, counterexample: for the text `Teh cat sat` and a model that suggests exactly `The` for
`Teh`, the record's correction is `Th`, not `The`, whether the model has nothing for `cat` and
`sat` or returns them unchanged; in the second case `cat` and `sat` are recorded too. -/
theorem checkText_truncates_suggestion :
    checkText MapRange.inOrder asciiToLower plainModel (ascii "Teh cat sat")
        = [⟨⟨ascii "Teh", ascii "Th"⟩, 1⟩]
      ∧ checkText MapRange.inOrder asciiToLower plainEchoModel (ascii "Teh cat sat")
        = [⟨⟨ascii "Teh", ascii "Th"⟩, 1⟩, ⟨⟨ascii "cat", ascii "ca"⟩, 1⟩,
            ⟨⟨ascii "sat", ascii "sa"⟩, 1⟩] := by
  decide

/-- C5 (amended): the checker records a typo for a token exactly when the model returns a
suggestion for it and the suggestion, once its last byte is dropped when it is longer than 2
bytes, differs from the token case-insensitively; the record's correct field is that truncated
suggestion.  A token with no suggestion, or whose truncated suggestion equals it ignoring
case, produces no entry.  For the text `Teh cat sat` and a model that suggests `The` plus one
trailing byte for `Teh` and, for `cat` and `sat`, nothing or the token plus one trailing byte,
the result is exactly the one record of `Teh`, `The` and count 1. -/
theorem checkText_records (ρ : MapRange) (ToLower model : GoString → GoString)
    (text : GoString) (t : Typo) :
    ((∃ r ∈ checkText ρ ToLower model text, r.toTypo = t) ↔
        ∃ w ∈ tokens text, model w ≠ [] ∧ ToLower w ≠ ToLower (truncated (model w))
          ∧ t = ⟨w, truncated (model w)⟩)
    ∧ checkText ρ asciiToLower tehModel (ascii "Teh cat sat") = [⟨tehThe, 1⟩]
    ∧ checkText ρ asciiToLower echoModel (ascii "Teh cat sat") = [⟨tehThe, 1⟩] := by
  refine ⟨?_, ?_, ?_⟩
  · constructor
    · rintro ⟨r, hr, e⟩
      subst e
      obtain ⟨w, hw, h⟩ := (occurrences_pos ToLower model r.toTypo text).1
        ((mem_checkText ρ ToLower model text r).1 hr).1
      exact ⟨w, hw, (typoOf_eq_some ToLower model w r.toTypo).1 h⟩
    · rintro ⟨w, hw, h⟩
      have hp := (occurrences_pos ToLower model t text).2
        ⟨w, hw, (typoOf_eq_some ToLower model w t).2 h⟩
      exact ⟨⟨t, GoInt.wrap (occurrences ToLower model t text)⟩,
        (mem_checkText ρ ToLower model text _).2 ⟨hp, rfl⟩, rfl⟩
  · rw [checkText_eq_report,
      show (tokens (ascii "Teh cat sat")).foldl (checkWord asciiToLower tehModel) []
        = [(tehThe, 1)] by decide]
    exact report_singleton ρ _
  · rw [checkText_eq_report,
      show (tokens (ascii "Teh cat sat")).foldl (checkWord asciiToLower echoModel) []
        = [(tehThe, 1)] by decide]
    exact report_singleton ρ _

/-- C6: the empty text has one token, the empty one, and the fuzzy library's `SpellCheck`
has no candidate for the empty token.  For every such model, whatever it answers for any other
token, the checker loop of `spellcheckFile` returns the empty list of records for the empty
text, and so does `spellcheckFile` when the file it reads is empty. -/
theorem checkText_empty_text (ρ : MapRange) (ToLower model : GoString → GoString)
    (fs : GoString → Except GoError GoString) (file : GoString) (batch : Bool)
    (hempty : model [] = []) :
    tokens [] = [[]]
    ∧ checkText ρ ToLower model [] = []
    ∧ (fs testPath = Except.ok [] →
        spellcheckFile ρ fs ToLower model file batch = ([], none)) := by
  have e : checkText ρ ToLower model [] = report ρ (checkWord ToLower model [] []) := rfl
  have h : checkText ρ ToLower model [] = [] := by
    rw [e, checkWord_eq]
    unfold typoOf
    rw [if_pos hempty]
    exact report_nil ρ
  refine ⟨rfl, h, ?_⟩
  intro hfs
  unfold spellcheckFile
  rw [hfs]
  show (checkText ρ ToLower model [], none) = ([], none)
  rw [h]

/-- C6, worked example: a model with candidates for `Teh` and `cta` and none for the empty
token, in either range order, gives no record for the empty text. -/
theorem checkText_empty_text_witness :
    checkText MapRange.reversed asciiToLower twoWordModel [] = [] :=
  (checkText_empty_text MapRange.reversed asciiToLower twoWordModel onlyTest (ascii "a.txt")
    false rfl).2.1

/-! ## Counts are positive -/

theorem intSum_pos {cs : List GoInt} (hne : cs ≠ []) (hpos : ∀ c ∈ cs, c.val ≥ 1) :
    intSum cs ≥ 1 := by
  induction cs with
  | nil => exact absurd rfl hne
  | cons c cs ih =>
    have hc := hpos c (List.mem_cons_self _ _)
    show c.val + intSum cs ≥ 1
    by_cases e : cs = []
    · subst e
      show c.val + 0 ≥ 1
      omega
    · have := ih e (fun d hd => hpos d (List.mem_cons_of_mem _ hd))
      omega

/-- C7, counterexample: both input records have a count of at least 1, and the one record
that `updateCounts` returns for them has the count -9223372036854775808. -/
theorem updateCounts_count_wraps :
    (∀ r ∈ [(⟨tehThe, maxInt⟩ : ErrorCounts), ⟨tehThe, 1⟩], r.Count.val ≥ 1)
      ∧ updateCounts MapRange.inOrder [⟨tehThe, maxInt⟩, ⟨tehThe, 1⟩]
        = [⟨tehThe, GoInt.wrap (-9223372036854775808)⟩]
      ∧ (GoInt.wrap (-9223372036854775808)).val < 1 := by
  decide

/-- C7 (amended): `addError` starts a new Typo at 1 and otherwise adds 1 in Go `int`
arithmetic.  Every record that `spellcheckFile` returns has a count of at least 1 when the
text it reads has fewer than 2^63 tokens, and every record that `updateCounts` returns has a
count of at least 1 when all input counts are at least 1 and the counts of each Typo of the
input add up to less than 2^63. -/
theorem counts_positive (ρ ρ' : MapRange) (fs : GoString → Except GoError GoString)
    (ToLower model : GoString → GoString) (file : GoString) (batch : Bool)
    (xs : List ErrorCounts) (typo : Typo) (errors : errorMap)
    (htok : ∀ c, fs testPath = Except.ok c → ((tokens c).length : Int) < 9223372036854775808)
    (hpos : ∀ r ∈ xs, r.Count.val ≥ 1)
    (hsum : ∀ r ∈ xs, intSum (countsFor r.toTypo xs) < 9223372036854775808) :
    (∀ r ∈ (spellcheckFile ρ fs ToLower model file batch).1, r.Count.val ≥ 1)
    ∧ (∀ r ∈ updateCounts ρ' xs, r.Count.val ≥ 1)
    ∧ (mapLookup errors typo = none → mapLookup (addError typo errors) typo = some 1)
    ∧ (∀ c, mapLookup errors typo = some c →
        mapLookup (addError typo errors) typo = some (c + 1)) := by
  refine ⟨?_, ?_, ?_, ?_⟩
  · unfold spellcheckFile
    cases hfs : fs testPath with
    | error err => intro r hr; simp at hr
    | ok c =>
      intro r hr
      have h := (mem_checkText ρ ToLower model c r).1 hr
      have hle := occurrences_le ToLower model r.toTypo c
      have hlt := htok c hfs
      rw [h.2, GoInt.wrap_val, wrapInt_of_inRange ⟨by omega, by omega⟩]
      have := h.1
      omega
  · intro r hr
    have hm := (mem_updateCounts ρ' xs r).1 hr
    obtain ⟨r0, hr0, e0⟩ := (countsFor_ne_nil r.toTypo xs).1 hm.1
    have hlt := hsum r0 hr0
    rw [e0] at hlt
    have hge : intSum (countsFor r.toTypo xs) ≥ 1 := by
      apply intSum_pos hm.1
      intro c hc
      unfold countsFor at hc
      obtain ⟨r1, hr1, e1⟩ := List.mem_map.1 hc
      rw [← e1]
      exact hpos r1 (List.mem_of_mem_filter hr1)
    rw [hm.2, goSum_val, wrapInt_of_inRange ⟨by omega, hlt⟩]
    exact hge
  · intro h
    rw [addError_eq_bump, mapLookup_bump, if_pos rfl, h]
  · intro c h
    rw [addError_eq_bump, mapLookup_bump, if_pos rfl, h]

/-- C7, worked example: the file `test` holds `Teh cta Teh`; the records checked from it and
the records merged from two lists all have a count of at least 1. -/
theorem counts_positive_witness :
    (∀ r ∈ (spellcheckFile MapRange.inOrder onlyTest asciiToLower twoWordModel
        (ascii "a.txt") false).1, r.Count.val ≥ 1)
    ∧ (∀ r ∈ updateCounts MapRange.reversed [⟨tehThe, 2⟩, ⟨tehThe, 1⟩], r.Count.val ≥ 1) :=
  have h := counts_positive MapRange.inOrder MapRange.reversed onlyTest asciiToLower
    twoWordModel (ascii "a.txt") false [⟨tehThe, 2⟩, ⟨tehThe, 1⟩] tehThe []
    (by
      intro c hc
      have e : onlyTest testPath = Except.ok (ascii "Teh cta Teh") := rfl
      rw [e] at hc
      cases hc
      decide)
    (by decide) (by decide)
  ⟨h.1, h.2.1⟩

/-! ## Reading the file -/

/-- C9: `spellcheckFile` reads the path `test` whatever file it is given: for any two file
arguments (and batch flags) the outcome is the same, namely the checker's result on the
contents of `test`, or no records together with the read error of `test`.  Asked for
`a.txt`, which holds `Teh`, it returns the typo of the file `test` when there is one and the
read error of `test` when there is none. -/
theorem spellcheckFile_reads_test (ρ : MapRange) (fs : GoString → Except GoError GoString)
    (ToLower model : GoString → GoString) (file₁ file₂ : GoString) (batch₁ batch₂ : Bool) :
    testPath = [116, 101, 115, 116]
    ∧ spellcheckFile ρ fs ToLower model file₁ batch₁
        = spellcheckFile ρ fs ToLower model file₂ batch₂
    ∧ spellcheckFile ρ fs ToLower model file₁ batch₁
        = (match fs [116, 101, 115, 116] with
          | Except.error err => ([], some err)
          | Except.ok fileContents => (checkText ρ ToLower model fileContents, none))
    ∧ spellcheckFile MapRange.inOrder threeFiles asciiToLower twoWordModel (ascii "a.txt") false
        = ([⟨⟨ascii "cta", ascii "cat"⟩, 1⟩], none)
    ∧ spellcheckFile MapRange.inOrder twoFiles asciiToLower twoWordModel (ascii "a.txt") false
        = ([], some noSuchFile) :=
  ⟨by decide, rfl, rfl, rfl, rfl⟩

/-- C8, the code at the failing input: the glob matches `a.txt` and `b.txt`, both holding
`Teh`, for which the checker gives `Teh`/`The` once each and the merge would give count 2.
Without a file `test` the batch reports no record and two read errors; with a file `test`
holding `cta` it reports `cta`/`cat` with count 2. -/
theorem batch_reads_test_for_every_file :
    updateCounts MapRange.inOrder
        (checkText MapRange.inOrder asciiToLower twoWordModel (ascii "Teh")
          ++ checkText MapRange.inOrder asciiToLower twoWordModel (ascii "Teh"))
        = [⟨tehThe, 2⟩]
    ∧ spellcheckDir (fun _ => MapRange.inOrder) twoFiles globTwo asciiToLower twoWordModel
        (ascii "*.txt") = Except.ok ([], [noSuchFile, noSuchFile])
    ∧ batchReport (fun _ => MapRange.inOrder) MapRange.inOrder twoFiles globTwo notExistTwo
        asciiToLower twoWordModel (ascii "*.txt") = Except.ok []
    ∧ batchReport (fun _ => MapRange.inOrder) MapRange.inOrder threeFiles globTwo notExistThree
        asciiToLower twoWordModel (ascii "*.txt")
        = Except.ok [⟨⟨ascii "cta", ascii "cat"⟩, 2⟩] :=
  ⟨by decide, rfl, rfl, rfl⟩

/-! ## Nothing to merge -/

theorem updateCounts_nil (ρ : MapRange) : updateCounts ρ [] = [] := by
  rw [updateCounts_eq_report]
  exact report_nil ρ

theorem checkFile_of_glob_cons {glob : GoString → Except GoError (List GoString)}
    (notExist : GoString → Bool) {pattern file : GoString} {rest : List GoString}
    (hg : glob pattern = Except.ok (file :: rest)) : checkFile glob notExist pattern = true := by
  unfold checkFile
  rw [hg]
  simp

/-- C10, counterexample: two batch runs over one matched file that do not report what the
single-file run on that file reports.  Without a file `test` the single-file run on `a.txt`
stops with the read error while the batch run reports the empty list; and for the file `[`,
which `checkFile` rejects as a malformed pattern, the single-file run stops with
`path does not exist` while the batch run over `?` reports the typo of `test`. -/
theorem one_file_batch_differs :
    (fileReport MapRange.inOrder twoFiles globOne notExistTwo asciiToLower twoWordModel
        (ascii "a.txt") = Except.error noSuchFile
      ∧ batchReport (fun _ => MapRange.inOrder) MapRange.inOrder twoFiles globOne notExistTwo
        asciiToLower twoWordModel (ascii "a*") = Except.ok [])
    ∧ (fileReport MapRange.inOrder bracketFiles globBracket notExistBracket asciiToLower
        twoWordModel (ascii "[") = Except.error pathDoesNotExist
      ∧ batchReport (fun _ => MapRange.inOrder) MapRange.inOrder bracketFiles globBracket
        notExistBracket asciiToLower twoWordModel (ascii "?") = Except.ok [⟨tehThe, 1⟩]) :=
  ⟨⟨rfl, rfl⟩, rfl, rfl⟩

/-- C10 (amended): on a list of records with pairwise distinct Typos `updateCounts` returns a
permutation of the list.  The lists that `spellcheckFile` and `updateCounts` return have
pairwise distinct Typos, so `updateCounts (updateCounts ys)` is a permutation of
`updateCounts ys`.  When the glob matches one file, the batch run reports a permutation of the
records of the single-file run on that file whenever `checkFile` accepts the file and `test`
can be read; when `test` cannot be read the single-file run stops with the read error and the
batch run reports no record; when `checkFile` rejects the file the single-file run stops with
`path does not exist`. -/
theorem updateCounts_perm_of_distinct (ρ ρ₁ ρ₂ : MapRange) (ρs : Nat → MapRange)
    (xs ys : List ErrorCounts) (fs : GoString → Except GoError GoString)
    (glob : GoString → Except GoError (List GoString)) (notExist : GoString → Bool)
    (ToLower model : GoString → GoString)
    (directory file : GoString) (batch : Bool)
    (hd : (xs.map (fun r => r.toTypo)).Nodup) (hg : glob directory = Except.ok [file]) :
    (updateCounts ρ xs).Perm xs
    ∧ ((spellcheckFile ρ fs ToLower model file batch).1.map (fun r => r.toTypo)).Nodup
    ∧ ((updateCounts ρ ys).map (fun r => r.toTypo)).Nodup
    ∧ (updateCounts ρ₁ (updateCounts ρ₂ ys)).Perm (updateCounts ρ₂ ys)
    ∧ (checkFile glob notExist file = true → ∀ c, fs testPath = Except.ok c →
        fileReport ρ₁ fs glob notExist ToLower model file
            = Except.ok (checkText ρ₁ ToLower model c)
          ∧ ∃ recs, batchReport ρs ρ₂ fs glob notExist ToLower model directory = Except.ok recs
              ∧ recs.Perm (checkText ρ₁ ToLower model c))
    ∧ (checkFile glob notExist file = true → ∀ err, fs testPath = Except.error err →
        fileReport ρ₁ fs glob notExist ToLower model file = Except.error err
          ∧ batchReport ρs ρ₂ fs glob notExist ToLower model directory = Except.ok [])
    ∧ (checkFile glob notExist file = false →
        fileReport ρ₁ fs glob notExist ToLower model file = Except.error pathDoesNotExist) := by
  have hdir : checkFile glob notExist directory = true := checkFile_of_glob_cons notExist hg
  refine ⟨updateCounts_perm_self ρ hd, ?_, updateCounts_typos_nodup ρ ys,
    updateCounts_perm_self ρ₁ (updateCounts_typos_nodup ρ₂ ys), ?_, ?_, ?_⟩
  · unfold spellcheckFile
    cases fs testPath with
    | error err => exact List.nodup_nil
    | ok c => exact checkText_typos_nodup ρ ToLower model c
  · intro hc c hfs
    unfold batchReport spellcheckDir fileReport
    rw [hg, hc, hdir]
    unfold spellcheckDirLoop spellcheckFile
    rw [hfs]
    simp only [spellcheckDirLoop, List.nil_append, Bool.not_true, Bool.false_eq_true, if_false]
    refine ⟨trivial, _, rfl, ?_⟩
    have h1 := updateCounts_perm_self ρ₂ (checkText_typos_nodup (ρs 0) ToLower model c)
    refine h1.trans ?_
    rw [checkText_eq_report, checkText_eq_report]
    exact (report_perm (ρs 0) _).trans (report_perm ρ₁ _).symm
  · intro hc err hfs
    unfold batchReport spellcheckDir fileReport
    rw [hg, hc, hdir]
    unfold spellcheckDirLoop spellcheckFile
    rw [hfs]
    simp only [spellcheckDirLoop, Bool.not_true, Bool.false_eq_true, if_false]
    rw [updateCounts_nil]
    exact ⟨trivial, rfl⟩
  · intro hc
    unfold fileReport
    rw [hc]
    rfl

/-- C10, worked example: three records with distinct Typos come back reordered, and in a
directory with `a.txt`, `b.txt` and `test`, with the pattern `a*` matching `a.txt` alone, the
batch run reports a permutation of the records of the single-file run on `a.txt`. -/
theorem updateCounts_perm_of_distinct_witness :
    (updateCounts MapRange.reversed
        [⟨tehThe, 1⟩, ⟨⟨ascii "cta", ascii "cat"⟩, 3⟩, ⟨⟨ascii "sta", ascii "sat"⟩, 2⟩]).Perm
      [⟨tehThe, 1⟩, ⟨⟨ascii "cta", ascii "cat"⟩, 3⟩, ⟨⟨ascii "sta", ascii "sat"⟩, 2⟩]
    ∧ fileReport MapRange.reversed threeFiles globOne notExistThree asciiToLower twoWordModel
        (ascii "a.txt")
      = Except.ok (checkText MapRange.reversed asciiToLower twoWordModel (ascii "cta"))
    ∧ ∃ recs, batchReport (fun _ => MapRange.inOrder) MapRange.inOrder threeFiles globOne
          notExistThree asciiToLower twoWordModel (ascii "a*") = Except.ok recs
        ∧ recs.Perm (checkText MapRange.reversed asciiToLower twoWordModel (ascii "cta")) :=
  have h := updateCounts_perm_of_distinct MapRange.reversed MapRange.reversed MapRange.inOrder
    (fun _ => MapRange.inOrder)
    [⟨tehThe, 1⟩, ⟨⟨ascii "cta", ascii "cat"⟩, 3⟩, ⟨⟨ascii "sta", ascii "sat"⟩, 2⟩] []
    threeFiles globOne notExistThree asciiToLower twoWordModel (ascii "a*") (ascii "a.txt") true
    (by decide) rfl
  ⟨h.1, h.2.2.2.2.1 rfl (ascii "cta") rfl⟩

end GoSpell
